import Mathlib

/-!
Verification of the helper-function library, template resolution and
generation driver of the protoc-gen-apidocs generator (src/main.go),
as a shallow embedding: Go strings are Lean `String`s (lists of
characters), regular-expression operations are modelled char-by-char
with the exact match semantics of the patterns in the source, the
filesystem is an explicit path-to-content map, and the plugin driver
loop is explicit state passing.
-/

namespace ApiDocs

/-! ## anchor (src/main.go lines 69-71, 148)

`specialCharsPattern = [^a-zA-Z0-9_-]`; `anchor` first replaces every
`/` by `_` (strings.ReplaceAll), then replaces every character matching
`specialCharsPattern`, i.e. every character outside `[A-Za-z0-9_-]`,
by `-` (each such character is its own regex match). -/

def isAnchorChar (c : Char) : Bool :=
  (('a' ≤ c && c ≤ 'z') || ('A' ≤ c && c ≤ 'Z') || ('0' ≤ c && c ≤ '9')
    || c == '_' || c == '-')

def anchor (s : String) : String :=
  String.mk (((s.data.map (fun c => if c == '/' then '_' else c)).map
    (fun c => if isAnchorChar c then c else '-')))

/-- The per-character action of `anchor`: `/` becomes `_`, characters in
`[A-Za-z0-9_-]` are kept, everything else becomes `-`. -/
def anchorChar (c : Char) : Char :=
  if c == '/' then '_' else if isAnchorChar c then c else '-'

theorem anchor_eq_map (s : String) : anchor s = String.mk (s.data.map anchorChar) := by
  unfold anchor anchorChar
  rw [List.map_map]
  congr 1
  apply List.map_congr_left
  intro c _
  by_cases h : c = '/'
  · subst h; rfl
  · simp [Function.comp, h]

theorem isAnchorChar_anchorChar (c : Char) : isAnchorChar (anchorChar c) = true := by
  unfold anchorChar
  by_cases h : c = '/'
  · simp [h]; rfl
  · simp [h]
    by_cases h2 : isAnchorChar c = true
    · simp [h2]
    · simp [h2]; rfl

theorem anchorChar_of_isAnchorChar (c : Char) (h : isAnchorChar c = true) :
    anchorChar c = c := by
  unfold anchorChar
  have hne : ¬ (c == '/') = true := by
    intro hc
    rw [beq_iff_eq] at hc
    subst hc
    simp [isAnchorChar] at h
  simp [hne, h]

theorem anchorChar_idem (c : Char) : anchorChar (anchorChar c) = anchorChar c :=
  anchorChar_of_isAnchorChar _ (isAnchorChar_anchorChar c)

theorem anchor_idem (s : String) : anchor (anchor s) = anchor s := by
  rw [anchor_eq_map, anchor_eq_map]
  simp only [List.map_map]
  congr 1
  apply List.map_congr_left
  intro c _
  exact anchorChar_idem c

theorem anchor_chars_safe (s : String) : (anchor s).data.all isAnchorChar = true := by
  rw [anchor_eq_map]
  simp only [String.mk, List.all_eq_true]
  intro c hc
  rw [List.mem_map] at hc
  obtain ⟨a, _, rfl⟩ := hc
  exact isAnchorChar_anchorChar a

/-! ## Descriptor model and longName (src/main.go lines 59-65)

A `protoreflect.Descriptor` exposes `Name()`, `FullName()` and
`Parent()` (nil for the root file descriptor).  `Name` and `FullName`
are intrinsic attributes of a descriptor node; `Parent` is an optional
back reference, so a descriptor is a finite parent chain. -/

inductive Desc : Type where
  | mk : String → String → Option Desc → Desc

def Desc.name : Desc → String
  | .mk n _ _ => n

def Desc.fullName : Desc → String
  | .mk _ f _ => f

def Desc.parent : Desc → Option Desc
  | .mk _ _ p => p

/-- `longName` (src/main.go lines 59-65): `p := d.Parent(); if p != nil
&& p.Parent() != nil` return `"<p.Name>.<d.Name>"`, else `d.Name`. -/
def longName (d : Desc) : String :=
  match d.parent with
  | some p =>
    match p.parent with
    | some _ => p.name ++ "." ++ d.name
    | none => d.name
  | none => d.name

/-- Spec-side predicate: the node is nested at least two levels deep. -/
def hasGrandparent (d : Desc) : Bool :=
  match d.parent with
  | some p => p.parent.isSome
  | none => false

/-- Name of the parent node (only meaningful when a parent exists). -/
def parentNameOf (d : Desc) : String :=
  match d.parent with
  | some p => p.name
  | none => ""

/-! ## protogen.Field / protogen.Message / protogen.Enum model
(src/main.go lines 73-105)

A `protogen.Field` has optional `Message` and `Enum` references (nil
when the field does not refer to a message resp. enum) and a `Desc`
whose `Kind()` prints as the primitive kind's canonical label; the
label is carried directly as the stringification of the kind. -/

structure MessageNode where
  desc : Desc

structure EnumNode where
  desc : Desc

structure FieldDesc where
  kindLabel : String

structure Field where
  message : Option MessageNode
  enum : Option EnumNode
  desc : FieldDesc

/-- `field_type` helper (src/main.go lines 73-81). -/
def field_type (f : Field) : String :=
  match f.message with
  | some m => longName m.desc
  | none =>
    match f.enum with
    | some e => longName e.desc
    | none => f.desc.kindLabel

/-- `full_field_type` helper (src/main.go lines 82-90). -/
def full_field_type (f : Field) : String :=
  match f.message with
  | some m => m.desc.fullName
  | none =>
    match f.enum with
    | some e => e.desc.fullName
    | none => f.desc.kindLabel

/-- `message_type` helper (src/main.go lines 97-102): a nil message is
modelled as `none` and mapped to the literal `"(none)"`. -/
def message_type : Option MessageNode → String
  | none => "(none)"
  | some m => m.desc.name

/-- `full_message_type` helper (src/main.go lines 103-105): the Go code
dereferences `f.Desc` without a nil check, so on a nil message it
panics; the panic is modelled by an `Option` result that is `none`
exactly on the nil input. -/
def full_message_type : Option MessageNode → Option String
  | none => none
  | some m => some m.desc.fullName

/-! Concrete descriptor trees used as test inputs: a file `test.proto`
containing a message `User` with a field `id`, and a message `Outer`
containing a nested message `Inner` referred to by a field. -/

def exFileDesc : Desc := .mk "test.proto" "testpkg" none

def exUserDesc : Desc := .mk "User" "testpkg.User" (some exFileDesc)

def exIdDesc : Desc := .mk "id" "testpkg.User.id" (some exUserDesc)

def exOuterDesc : Desc := .mk "Outer" "testpkg.Outer" (some exFileDesc)

def exInnerDesc : Desc := .mk "Inner" "testpkg.Outer.Inner" (some exOuterDesc)

def exInnerMsg : MessageNode := ⟨exInnerDesc⟩

/-- A field whose type is the nested message `Outer.Inner`. -/
def exNestedField : Field := ⟨some exInnerMsg, none, ⟨"message"⟩⟩

def exEnumNode : EnumNode := ⟨.mk "Color" "testpkg.Color" (some exFileDesc)⟩

/-! ## description (src/main.go lines 106-112)

`strings.TrimLeft(fmt.Sprint(s), "*/\n ")` drops the longest leading
run of characters drawn from the cutset; then `strings.HasPrefix(val,
"@exclude")` selects the empty result. -/

def isTrimChar (c : Char) : Bool :=
  c == '*' || c == '/' || c == '\n' || c == ' '

def description (s : String) : String :=
  if List.isPrefixOf "@exclude".data (s.data.dropWhile isTrimChar) then ""
  else String.mk (s.data.dropWhile isTrimChar)

/-! ## p / para filters (src/main.go lines 145, 151-159)

`paraPattern = (\n|\r|\r\n)\s*`.  Go's regexp uses leftmost-first
(Perl) alternation, so the pattern matches exactly one line-break
character (`\n`, or `\r` — the `\r\n` branch is shadowed by `\r`)
followed greedily by every whitespace character (`\s = [\t\n\f\r ]`).
`Split` therefore cuts the string at every line-break character and
swallows all whitespace following it.  The split is modelled by a
two-state scanner: state `false` is inside a segment, state `true` is
consuming the whitespace tail of a boundary; `acc` is the reversed
current segment. -/

def isBreakChar (c : Char) : Bool :=
  c == '\n' || c == '\r'

def isGoSpace (c : Char) : Bool :=
  c == '\t' || c == '\n' || c == '\x0c' || c == '\r' || c == ' '

def spGo : Bool → List Char → List Char → List (List Char)
  | _, [], acc => [acc.reverse]
  | false, c :: rest, acc =>
    if isBreakChar c then acc.reverse :: spGo true rest []
    else spGo false rest (c :: acc)
  | true, c :: rest, acc =>
    if isGoSpace c then spGo true rest acc
    else spGo false rest (c :: acc)

/-- `paraPattern.Split(content, -1)` as a list of character lists. -/
def paraSplit (content : String) : List String :=
  (spGo false content.data []).map String.mk

/-- `pFilter` (src/main.go lines 151-154); the `template.HTML` cast is
dropped, keeping the underlying string. -/
def pFilter (content : String) : String :=
  "<p>" ++ String.intercalate "</p><p>" (paraSplit content) ++ "</p>"

/-- `paraFilter` (src/main.go lines 156-159). -/
def paraFilter (content : String) : String :=
  "<para>" ++ String.intercalate "</para><para>" (paraSplit content) ++ "</para>"

/-! Spec-side formulation of the same split: the spec reads the pattern
as "any line-break sequence (`\n`, `\r`, or `\r\n`) followed by
arbitrary leading whitespace", i.e. it treats `\r\n` as one boundary
token.  The scanner below consumes `\r\n` as a unit in segment state;
it is proved equal to `spGo`. -/

/-- Consume the `\n` of a leading `\r\n` pair whose `\r` has already
been consumed as a boundary token. -/
def dropLeadingLF : List Char → List Char
  | '\n' :: rest => rest
  | cs => cs

/-- Skip of a boundary: after the first line-break character `c`, the
rest of a `\r\n` token (when `c` is `\r`) and then all whitespace. -/
def afterBoundary (c : Char) (rest : List Char) : List Char :=
  (if c == '\r' then dropLeadingLF rest else rest).dropWhile isGoSpace

theorem dropLeadingLF_length_le (cs : List Char) :
    (dropLeadingLF cs).length ≤ cs.length := by
  unfold dropLeadingLF
  split
  · simp
  · exact Nat.le_refl _

theorem afterBoundary_length_le (c : Char) (rest : List Char) :
    (afterBoundary c rest).length ≤ rest.length := by
  unfold afterBoundary
  refine Nat.le_trans (List.dropWhile_sublist isGoSpace).length_le ?_
  by_cases hc : (c == '\r') = true
  · simp only [hc, if_true]
    exact dropLeadingLF_length_le rest
  · simp [hc]

def spSpecTop : List Char → List Char → List (List Char)
  | [], acc => [acc.reverse]
  | c :: rest, acc =>
    if isBreakChar c then acc.reverse :: spSpecTop (afterBoundary c rest) []
    else spSpecTop rest (c :: acc)
termination_by cs _ => cs.length
decreasing_by
  · simp only [List.length_cons]
    exact Nat.lt_succ_of_le (afterBoundary_length_le c rest)
  · simp only [List.length_cons]
    exact Nat.lt_succ_self _

/-- Spec-side paragraph wrap: each segment wrapped and the wrapped
segments concatenated with no separator. -/
def wrapJoin (op cl : String) (segs : List String) : String :=
  String.join (segs.map (fun t => op ++ t ++ cl))

def pSpec (content : String) : String :=
  wrapJoin "<p>" "</p>" ((spSpecTop content.data []).map String.mk)

def paraSpec (content : String) : String :=
  wrapJoin "<para>" "</para>" ((spSpecTop content.data []).map String.mk)

/-! ## nobr (src/main.go lines 146-147, 161-169)

`strings.Replace(content, "\r\n", "\n", -1)` is a single left-to-right
pass replacing non-overlapping occurrences. -/

def normalizeCRLF : List Char → List Char
  | '\r' :: '\n' :: rest => '\n' :: normalizeCRLF rest
  | c :: rest => c :: normalizeCRLF rest
  | [] => []

/-! `multiNewlinePattern = (\r\n|\r|\n){2,}`.  Over a run of line-break
characters the greedy repetition always consumes the whole maximal run
(every run can be tiled by the alternatives, and a two-character run
that a single `\r\n` alternative would cover in one repetition
backtracks to `\r`,`\n`), so a match is exactly a maximal run of
line-break characters of length at least two.  `Split` at these
matches is modelled by a three-state scanner: `text` inside a segment,
`one b` after a single pending line-break character `b`, `many` while
consuming the rest of a boundary run. -/

inductive SMState where
  | text : SMState
  | one : Char → SMState
  | many : SMState

def smGo : SMState → List Char → List Char → List (List Char)
  | .text, [], acc => [acc.reverse]
  | .text, c :: rest, acc =>
    if isBreakChar c then smGo (.one c) rest acc
    else smGo .text rest (c :: acc)
  | .one b, [], acc => [(b :: acc).reverse]
  | .one b, c :: rest, acc =>
    if isBreakChar c then acc.reverse :: smGo .many rest []
    else smGo .text rest (c :: b :: acc)
  | .many, [], acc => [acc.reverse]
  | .many, c :: rest, acc =>
    if isBreakChar c then smGo .many rest acc
    else smGo .text rest (c :: acc)

/-- `multiNewlinePattern.Split(normalized, -1)` as character lists. -/
def multiNewlineSplit (cs : List Char) : List (List Char) :=
  smGo .text cs []

/-! `spacePattern = ( )+`; `ReplaceAllString(s, " ")` maps every
maximal run of spaces to a single space.  Two-state scanner: the flag
records whether the previous character was part of a space run whose
single replacement space has already been emitted. -/

def csGo : Bool → List Char → List Char
  | _, [] => []
  | inRun, c :: rest =>
    if c == ' ' then
      if inRun then csGo true rest else ' ' :: csGo true rest
    else c :: csGo false rest

def collapseSpaces (cs : List Char) : List Char :=
  csGo false cs

/-- `nobrFilter` (src/main.go lines 161-169): normalize `\r\n`, split
into paragraphs at multi-newline runs, replace `\r` then `\n` by
spaces, collapse space runs, and rejoin with `"\n\n"`. -/
def nobrFilter (content : String) : String :=
  let normalized := normalizeCRLF content.data
  let paragraphs := multiNewlineSplit normalized
  let processed := paragraphs.map (fun p =>
    collapseSpaces ((p.map (fun c => if c == '\r' then ' ' else c)).map
      (fun c => if c == '\n' then ' ' else c)))
  String.intercalate "\n\n" (processed.map String.mk)

/-! Spec-side formulation of `nobr`: one combined replacement of every
remaining line-break character by a space, and a run-collapse written
by direct two-character recursion. -/

def collapseSpacesSpec : List Char → List Char
  | [] => []
  | [c] => [c]
  | c1 :: c2 :: rest =>
    if c1 == ' ' && c2 == ' ' then collapseSpacesSpec (c2 :: rest)
    else c1 :: collapseSpacesSpec (c2 :: rest)

def nobrSpec (content : String) : String :=
  let paragraphs := multiNewlineSplit (normalizeCRLF content.data)
  let processed := paragraphs.map (fun p =>
    collapseSpacesSpec (p.map (fun c => if isBreakChar c then ' ' else c)))
  String.intercalate "\n\n" (processed.map String.mk)

/-! ## Template resolution (src/main.go lines 119-140)

The on-disk filesystem is a finite map from path-component lists to
file contents.  `os.DirFS(dir)` is the filesystem rooted at `dir`, so
it resolves a relative path `p` to `dir :: p` on disk; `fs.Sub(fsys,
dir)` resolves `p` to `dir :: p` inside `fsys`.  `TemplateDir` is
taken to be a plain relative directory name (a valid single path
element, so `fs.Sub` itself does not error).  The embedded default
template tree (after `fs.Sub(defaultTemplates, "templates")`) is an
abstract filename-to-content map `defaults`.  `ParseFS(tFS,
"<format>.tpl")` succeeds exactly when the resolved filesystem holds a
file named `<format>.tpl` (the glob pattern is literal for plain
format names, and `template.ParseFS` fails with a pattern-matches-no-
files error otherwise). -/

abbrev DiskFS := List (List String × String)

def diskLookup (disk : DiskFS) (p : List String) : Option String :=
  List.lookup p disk

abbrev FSModel := List String → Option String

def osDirFS (disk : DiskFS) (dir : String) : FSModel :=
  fun p => diskLookup disk (dir :: p)

def fsSub (fsys : FSModel) (dir : String) : FSModel :=
  fun p => fsys (dir :: p)

/-- `GenOpts.getTemplateFS` (src/main.go lines 122-128). -/
def getTemplateFS (disk : DiskFS) (defaults : FSModel) (templateDir : String) : FSModel :=
  if templateDir = "" then defaults
  else fsSub (osDirFS disk templateDir) templateDir

/-- Template lookup step of `GenOpts.renderTemplate` (src/main.go
lines 129-140): resolve the filesystem and load `<format>.tpl`. -/
def resolveTemplate (disk : DiskFS) (defaults : FSModel)
    (templateDir format : String) : Except String String :=
  match getTemplateFS disk defaults templateDir [format ++ ".tpl"] with
  | some t => .ok t
  | none => .error ("template: pattern matches no files: " ++ format ++ ".tpl")

/-! ## Generation driver (src/main.go lines 18-57)

`main` iterates `gen.Files` in order, skips files with `Generate`
unset, and returns on the first error from `generateFile`;
`generateFile` computes `filename = GeneratedFilenamePrefix + "." +
Format` and wraps any rendering error as
`issue generating <filename>: <cause>`.  Template execution itself
(parse plus `ExecuteTemplate`) is the external collaborator `render`.
`runFiles` returns the filenames rendered before the first failure and
the first wrapped error, if any. -/

structure PFile where
  generate : Bool
  stem : String

def generateFile (render : PFile → Except String Unit) (format : String)
    (f : PFile) : Except String String :=
  let filename := f.stem ++ "." ++ format
  match render f with
  | .ok _ => .ok filename
  | .error e => .error ("issue generating " ++ filename ++ ": " ++ e)

def runFiles (render : PFile → Except String Unit) (format : String) :
    List PFile → List String × Option String
  | [] => ([], none)
  | f :: fs =>
    if f.generate then
      match generateFile render format f with
      | .ok name =>
        let r := runFiles render format fs
        (name :: r.1, r.2)
      | .error e => ([], some e)
    else runFiles render format fs

/-! Concrete inputs for the template-resolution and driver claims. -/

/-- A disk holding the override template at `custom/markdown.tpl`. -/
def exDisk : DiskFS := [(["custom", "markdown.tpl"], "OVERRIDE")]

/-- Embedded defaults holding `markdown.tpl`. -/
def exDefaults : FSModel :=
  fun p => if p == ["markdown.tpl"] then some "DEFAULT" else none

/-- A renderer that fails exactly on the file with stem `b`. -/
def renderEx : PFile → Except String Unit :=
  fun f => if f.stem == "b" then .error "boom" else .ok ()

/-!
# Theorems
-/

/-- Claim C8: `anchor` stringifies the input, replaces every `/` with
`_`, then replaces every character outside `[A-Za-z0-9_-]` with `-`
(the combined per-character action `anchorChar`); it is total — in
particular it maps every string to a string of the same length — and
`anchor "Foo/Bar Baz!" = "Foo_Bar-Baz-"`. -/
theorem claim_C8_anchor_behavior :
    anchor "Foo/Bar Baz!" = "Foo_Bar-Baz-" ∧
    (∀ s : String, anchor s = String.mk (s.data.map anchorChar)) ∧
    (∀ s : String, (anchor s).length = s.length) := by
  refine ⟨by decide, anchor_eq_map, ?_⟩
  intro s
  rw [anchor_eq_map]
  show (s.data.map anchorChar).length = s.data.length
  exact List.length_map s.data anchorChar

/-- Claim C3, counterexample to the claimed non-idempotence: there is
no string on which re-applying `anchor` changes the result, because
`anchor`'s output never contains `/` or any character outside
`[A-Za-z0-9_-]`. -/
theorem claim_C3_counterexample :
    ¬ ∃ s : String, anchor (anchor s) ≠ anchor s := by
  rintro ⟨s, hs⟩
  exact hs (anchor_idem s)

/-- Claim C3 as amended: `anchor` is idempotent — `anchor (anchor s) =
anchor s` for every string `s` — and every character of `anchor s`
lies in the class `[A-Za-z0-9_-]`. -/
theorem claim_C3_anchor_idempotent_and_safe :
    (∀ s : String, anchor (anchor s) = anchor s) ∧
    (∀ s : String, (anchor s).data.all isAnchorChar = true) :=
  ⟨anchor_idem, anchor_chars_safe⟩

/-- Claim C6: `longName` returns `"<parent-name>.<node-name>"` exactly
when the node has a grandparent, and just the node's name otherwise;
a field `id` on a message `User` in a file gives `"User.id"`, and a
top-level message `User` gives `"User"`. -/
theorem claim_C6_longName :
    (∀ d : Desc, longName d =
      if hasGrandparent d then parentNameOf d ++ "." ++ d.name else d.name) ∧
    longName exIdDesc = "User.id" ∧ longName exUserDesc = "User" := by
  refine ⟨?_, rfl, rfl⟩
  rintro ⟨n, fn, p⟩
  cases p with
  | none => rfl
  | some q =>
    rcases q with ⟨qn, qfn, qp⟩
    cases qp with
    | none => rfl
    | some g => rfl

/-- Claim C10: `message_type` guards the absent-message case and maps
`none` to the literal `"(none)"`, while `full_message_type` on the nil
message dereferences the nil pointer — modelled as the `none` result —
and on every present message both return the (short resp. full)
descriptor name. -/
theorem claim_C10_nil_message_guard :
    message_type none = "(none)" ∧
    full_message_type (none : Option MessageNode) = none ∧
    (∀ m : MessageNode, message_type (some m) = m.desc.name ∧
      full_message_type (some m) = some m.desc.fullName) :=
  ⟨rfl, rfl, fun _ => ⟨rfl, rfl⟩⟩

/-- Claim C1 (code bug): with override directory `custom` configured,
`getTemplateFS` composes `fs.Sub(os.DirFS("custom"), "custom")` and so
looks templates up under `custom/custom/`, not directly under
`custom/`; resolution of format `markdown` fails with the
pattern-matches-no-files error even though `custom/markdown.tpl`
exists on disk (and `markdown.tpl` exists in the embedded defaults). -/
theorem claim_C1_override_double_sub :
    resolveTemplate exDisk exDefaults "custom" "markdown" =
      .error "template: pattern matches no files: markdown.tpl" ∧
    diskLookup exDisk ["custom", "markdown.tpl"] = some "OVERRIDE" ∧
    exDefaults ["markdown.tpl"] = some "DEFAULT" ∧
    getTemplateFS exDisk exDefaults "custom" ["markdown.tpl"] =
      diskLookup exDisk ["custom", "custom", "markdown.tpl"] :=
  ⟨rfl, rfl, rfl, rfl⟩

/-- Claim C5, counterexample to "returns the empty string exactly when
the remaining text begins with `@exclude`": on input `"***"` the
left-trimmed text is empty, so it does not begin with `@exclude`, yet
`description` returns the empty string. -/
theorem claim_C5_counterexample :
    description "***" = "" ∧
    List.isPrefixOf "@exclude".data (("***" : String).data.dropWhile isTrimChar)
      = false :=
  ⟨rfl, rfl⟩

/-- Claim C5 as amended: `description` removes the leading run of `*`,
`/`, newline and space characters, and returns the empty string exactly
when the remaining text begins with `@exclude` or is itself empty;
otherwise it returns the left-trimmed text unchanged (trailing
whitespace preserved: `"  hello world  \n"` maps to
`"hello world  \n"`). -/
theorem claim_C5_description :
    description "  hello world  \n" = "hello world  \n" ∧
    description "/** @exclude internal note */" = "" ∧
    (∀ s : String, description s = "" ↔
      (List.isPrefixOf "@exclude".data (s.data.dropWhile isTrimChar) = true ∨
        s.data.dropWhile isTrimChar = [])) ∧
    (∀ s : String,
      List.isPrefixOf "@exclude".data (s.data.dropWhile isTrimChar) = false →
        description s = String.mk (s.data.dropWhile isTrimChar)) := by
  refine ⟨by decide, by decide, ?_, ?_⟩
  · intro s
    unfold description
    cases h : List.isPrefixOf "@exclude".data (s.data.dropWhile isTrimChar) with
    | true => simp [h]
    | false =>
      simp only [h, Bool.false_eq_true, if_false]
      constructor
      · intro h2
        exact Or.inr (congrArg String.data h2)
      · rintro (h2 | h2)
        · exact absurd h2 (by simp [h])
        · rw [h2]
  · intro s h
    unfold description
    simp [h]

/-- Claim C5 witness: the no-marker branch applied at the concrete
input `"  hi"`. -/
theorem claim_C5_witness :
    List.isPrefixOf "@exclude".data (("  hi" : String).data.dropWhile isTrimChar)
      = false ∧
    description "  hi" = String.mk (("  hi" : String).data.dropWhile isTrimChar) :=
  ⟨by decide, claim_C5_description.2.2.2 "  hi" (by decide)⟩

/-- Claim C2, counterexample: a field referencing the message `Inner`
nested inside message `Outer` has `field_type` `"Outer.Inner"`, which
is not the referenced type's short name `"Inner"`. -/
theorem claim_C2_counterexample :
    exNestedField.message = some exInnerMsg ∧
    exInnerMsg.desc.name = "Inner" ∧
    field_type exNestedField = "Outer.Inner" ∧
    field_type exNestedField ≠ "Inner" := by
  refine ⟨rfl, rfl, rfl, ?_⟩
  decide

/-- Claim C2 as amended: when the field references a message or enum,
`field_type` returns the referenced type's `longName` (the two-level
disambiguated name: `"<parent>.<name>"` when the type has a
grandparent, else its simple name — not always the short name), and
`full_field_type` returns the referenced type's fully-qualified name;
otherwise both return the primitive kind's canonical label. -/
theorem claim_C2_field_type :
    (∀ (f : Field) (m : MessageNode), f.message = some m →
      field_type f = longName m.desc ∧ full_field_type f = m.desc.fullName) ∧
    (∀ (f : Field) (e : EnumNode), f.message = none → f.enum = some e →
      field_type f = longName e.desc ∧ full_field_type f = e.desc.fullName) ∧
    (∀ f : Field, f.message = none → f.enum = none →
      field_type f = f.desc.kindLabel ∧ full_field_type f = f.desc.kindLabel) := by
  refine ⟨?_, ?_, ?_⟩
  · intro f m h
    constructor <;> simp [field_type, full_field_type, h]
  · intro f e h1 h2
    constructor <;> simp [field_type, full_field_type, h1, h2]
  · intro f h1 h2
    constructor <;> simp [field_type, full_field_type, h1, h2]

/-- Claim C2 witness: the message case applied at the concrete nested
field. -/
theorem claim_C2_witness :
    exNestedField.message = some exInnerMsg ∧
    (field_type exNestedField = longName exInnerMsg.desc ∧
      full_field_type exNestedField = exInnerMsg.desc.fullName) :=
  ⟨rfl, claim_C2_field_type.1 exNestedField exInnerMsg rfl⟩

/-- Claim C9: every rendering error for an input file is returned
wrapped with the output filename (stem and format) and the underlying
cause, and the driver stops at the first failing file: the files
before it in the requested sequence are generated, the files after it
are not (no partial-success mode). -/
theorem claim_C9_error_wrapping_and_halt
    (render : PFile → Except String Unit) (format : String)
    (fs1 : List PFile) (bad : PFile) (fs2 : List PFile) (cause : String)
    (h1 : ∀ f ∈ fs1, render f = .ok ())
    (h2 : bad.generate = true)
    (h3 : render bad = .error cause) :
    runFiles render format (fs1 ++ bad :: fs2) =
      ((fs1.filter (fun f => f.generate)).map (fun f => f.stem ++ "." ++ format),
        some ("issue generating " ++ bad.stem ++ "." ++ format ++ ": " ++ cause)) := by
  induction fs1 with
  | nil =>
    simp only [List.nil_append, List.filter_nil, List.map_nil]
    unfold runFiles
    simp [h2, generateFile, h3, String.append_assoc]
  | cons f fs ih =>
    have hf : render f = .ok () := h1 f (List.mem_cons_self f fs)
    have h1t : ∀ g ∈ fs, render g = .ok () := fun g hg => h1 g (List.mem_cons_of_mem f hg)
    simp only [List.cons_append]
    unfold runFiles
    by_cases hg : f.generate
    · simp only [hg, if_true, generateFile, hf]
      rw [ih h1t]
      simp [List.filter_cons, hg]
    · simp only [hg]
      rw [ih h1t]
      simp [List.filter_cons, hg]

/-- Claim C9 witness: driving files `a`, `b`, `c` where rendering `b`
fails generates only `a.markdown` and stops with the wrapped error. -/
theorem claim_C9_witness :
    runFiles renderEx "markdown" [⟨true, "a"⟩, ⟨true, "b"⟩, ⟨true, "c"⟩] =
      (["a.markdown"], some "issue generating b.markdown: boom") := by
  have h := claim_C9_error_wrapping_and_halt renderEx "markdown"
    [⟨true, "a"⟩] ⟨true, "b"⟩ [⟨true, "c"⟩] "boom"
    (by
      intro f hf
      rw [List.mem_singleton] at hf
      subst hf
      rfl)
    rfl rfl
  simpa using h

/-! Support for claim C7: the source scanner `spGo` equals the
spec-side splitter `spSpecTop`, and the sprintf/Join wrapping equals
the wrap-each-then-concatenate formulation. -/

theorem isGoSpace_of_isBreakChar (c : Char) (h : isBreakChar c = true) :
    isGoSpace c = true := by
  unfold isBreakChar at h
  unfold isGoSpace
  rcases Bool.or_eq_true_iff.mp h with h1 | h1 <;> simp [h1]

theorem dropLeadingLF_eq_of_head_ne (d : Char) (rest : List Char) (hd : d ≠ '\n') :
    dropLeadingLF (d :: rest) = d :: rest := by
  unfold dropLeadingLF
  split
  · rename_i heq
    rw [List.cons.injEq] at heq
    exact absurd heq.1 hd
  · rfl

theorem dropWhile_dropLeadingLF (rest : List Char) :
    (dropLeadingLF rest).dropWhile isGoSpace = rest.dropWhile isGoSpace := by
  cases rest with
  | nil => rfl
  | cons d rest2 =>
    by_cases hd : d = '\n'
    · subst hd
      show rest2.dropWhile isGoSpace = (('\n' :: rest2).dropWhile isGoSpace)
      rw [List.dropWhile_cons_of_pos]
      rfl
    · rw [dropLeadingLF_eq_of_head_ne d rest2 hd]

theorem afterBoundary_eq_dropWhile (c : Char) (rest : List Char) :
    afterBoundary c rest = rest.dropWhile isGoSpace := by
  unfold afterBoundary
  by_cases hc : (c == '\r') = true
  · rw [if_pos hc, dropWhile_dropLeadingLF]
  · rw [if_neg hc]

theorem spGo_true_eq_dropWhile :
    ∀ (cs : List Char) (acc : List Char),
      spGo true cs acc = spGo false (cs.dropWhile isGoSpace) acc := by
  intro cs
  induction cs with
  | nil => intro acc; rfl
  | cons c rest ih =>
    intro acc
    by_cases hsp : isGoSpace c = true
    · rw [List.dropWhile_cons_of_pos hsp]
      show (if isGoSpace c then spGo true rest acc else spGo false rest (c :: acc)) = _
      rw [if_pos hsp]
      exact ih acc
    · have hbr : isBreakChar c = false := by
        cases h : isBreakChar c
        · rfl
        · exact absurd (isGoSpace_of_isBreakChar c h) hsp
      rw [List.dropWhile_cons_of_neg hsp]
      show (if isGoSpace c then spGo true rest acc else spGo false rest (c :: acc)) =
        (if isBreakChar c then acc.reverse :: spGo true rest [] else spGo false rest (c :: acc))
      rw [if_neg (by simp [hsp]), if_neg (by simp [hbr])]

theorem spGo_eq_spSpecTop_le (n : Nat) :
    ∀ (cs : List Char), cs.length ≤ n → ∀ (acc : List Char),
      spGo false cs acc = spSpecTop cs acc := by
  induction n with
  | zero =>
    intro cs hlen acc
    have hnil : cs = [] := List.eq_nil_of_length_eq_zero (Nat.le_zero.mp hlen)
    subst hnil
    rw [spSpecTop]
    rfl
  | succ n ih =>
    intro cs hlen acc
    cases cs with
    | nil =>
      rw [spSpecTop]
      rfl
    | cons c rest =>
      rw [spSpecTop]
      by_cases hbr : isBreakChar c = true
      · rw [if_pos hbr]
        show (if isBreakChar c then acc.reverse :: spGo true rest [] else _) = _
        rw [if_pos hbr, spGo_true_eq_dropWhile, afterBoundary_eq_dropWhile]
        congr 1
        apply ih
        have h1 : (rest.dropWhile isGoSpace).length ≤ rest.length :=
          (List.dropWhile_sublist isGoSpace).length_le
        have h2 : rest.length + 1 ≤ n + 1 := by simpa using hlen
        omega
      · rw [if_neg (by simp [hbr])]
        show (if isBreakChar c then acc.reverse :: spGo true rest [] else spGo false rest (c :: acc)) = _
        rw [if_neg (by simp [hbr])]
        apply ih
        have h2 : rest.length + 1 ≤ n + 1 := by simpa using hlen
        omega

theorem spGo_eq_spSpecTop (cs : List Char) (acc : List Char) :
    spGo false cs acc = spSpecTop cs acc :=
  spGo_eq_spSpecTop_le cs.length cs (Nat.le_refl _) acc

theorem spGo_ne_nil :
    ∀ (cs : List Char) (mode : Bool) (acc : List Char), spGo mode cs acc ≠ [] := by
  intro cs
  induction cs with
  | nil =>
    intro mode acc
    cases mode <;> simp [spGo]
  | cons c rest ih =>
    intro mode acc
    cases mode with
    | false =>
      show (if isBreakChar c then acc.reverse :: spGo true rest [] else spGo false rest (c :: acc)) ≠ []
      by_cases hbr : isBreakChar c = true
      · simp [hbr]
      · rw [if_neg (by simp [hbr])]
        exact ih false (c :: acc)
    | true =>
      show (if isGoSpace c then spGo true rest acc else spGo false rest (c :: acc)) ≠ []
      by_cases hsp : isGoSpace c = true
      · rw [if_pos hsp]
        exact ih true acc
      · rw [if_neg (by simp [hsp])]
        exact ih false (c :: acc)

theorem intercalate_go_eq (sep : String) :
    ∀ (xs : List String) (acc : String),
      String.intercalate.go acc sep xs =
        acc ++ String.join (xs.map (fun t => sep ++ t)) := by
  intro xs
  induction xs with
  | nil =>
    intro acc
    show acc = acc ++ String.join []
    apply String.ext
    simp
  | cons a as ih =>
    intro acc
    show String.intercalate.go (acc ++ sep ++ a) sep as = _
    rw [ih]
    apply String.ext
    simp [List.map_map, Function.comp]

theorem flatten_wrap_shift (op cl : String) :
    ∀ (xs : List String),
      (xs.map (fun t => cl.data ++ (op.data ++ t.data))).flatten ++ cl.data =
        cl.data ++ (xs.map (fun t => op.data ++ (t.data ++ cl.data))).flatten := by
  intro xs
  induction xs with
  | nil => simp
  | cons t ts ih =>
    simp only [List.map_cons, List.flatten_cons, List.append_assoc]
    rw [ih]

theorem wrap_intercalate (op cl : String) :
    ∀ (l : List String), l ≠ [] →
      op ++ String.intercalate (cl ++ op) l ++ cl = wrapJoin op cl l := by
  intro l hl
  match l with
  | x :: xs =>
    show op ++ String.intercalate.go x (cl ++ op) xs ++ cl = _
    rw [intercalate_go_eq]
    unfold wrapJoin
    apply String.ext
    simp only [String.data_append, String.data_join, List.map_map, List.map_cons,
      List.flatten_cons, Function.comp_def, List.append_assoc]
    rw [flatten_wrap_shift]

/-- Claim C7: `p` splits its input at every line-break boundary
(a `\n`, `\r`, or `\r\n` followed by arbitrary whitespace, which the
source pattern `(\n|\r|\r\n)\s*` cuts identically), wraps each
resulting segment in `<p>…</p>`, and joins the wrapped segments with
no separator; `para` does the same with `<para>` tags; in particular
`p "a\nb\n\nc" = "<p>a</p><p>b</p><p>c</p>"`. -/
theorem claim_C7_paragraph_filters :
    (∀ s : String, pFilter s = pSpec s) ∧
    (∀ s : String, paraFilter s = paraSpec s) ∧
    pFilter "a\nb\n\nc" = "<p>a</p><p>b</p><p>c</p>" := by
  refine ⟨?_, ?_, by decide⟩
  · intro s
    unfold pFilter pSpec paraSplit
    rw [← spGo_eq_spSpecTop]
    exact wrap_intercalate "<p>" "</p>" ((spGo false s.data []).map String.mk)
      (fun h => spGo_ne_nil s.data false [] (List.map_eq_nil_iff.mp h))
  · intro s
    unfold paraFilter paraSpec paraSplit
    rw [← spGo_eq_spSpecTop]
    exact wrap_intercalate "<para>" "</para>" ((spGo false s.data []).map String.mk)
      (fun h => spGo_ne_nil s.data false [] (List.map_eq_nil_iff.mp h))

/-! Support for claim C4: the two sequential single-character
replacements of `nobr` fuse into one replacement of every line-break
character, and the regex space-collapse equals the spec's recursive
run-collapse. -/

theorem replaceCR_replaceLF_fuse (p : List Char) :
    (p.map (fun c => if c == '\r' then ' ' else c)).map
        (fun c => if c == '\n' then ' ' else c) =
      p.map (fun c => if isBreakChar c then ' ' else c) := by
  rw [List.map_map]
  apply List.map_congr_left
  intro c _
  show (if (if c == '\r' then ' ' else c) == '\n' then ' '
      else (if c == '\r' then ' ' else c)) =
    (if isBreakChar c then ' ' else c)
  by_cases h1 : c = '\r'
  · subst h1
    rfl
  · by_cases h2 : c = '\n'
    · subst h2
      rfl
    · have b1 : (c == '\r') = false := by simp [h1]
      have b2 : (c == '\n') = false := by simp [h2]
      simp [isBreakChar, b1, b2]

theorem csGo_false_eq_spec_le (n : Nat) :
    ∀ l : List Char, l.length ≤ n → csGo false l = collapseSpacesSpec l := by
  induction n with
  | zero =>
    intro l h
    have hnil : l = [] := List.eq_nil_of_length_eq_zero (Nat.le_zero.mp h)
    subst hnil
    rfl
  | succ n ih =>
    intro l h
    match l with
    | [] => rfl
    | [c] =>
      show (if c == ' ' then ' ' :: csGo true [] else c :: csGo false []) = [c]
      by_cases hc : (c == ' ') = true
      · rw [if_pos hc, eq_of_beq hc]
        rfl
      · rw [if_neg hc]
        rfl
    | c1 :: c2 :: rest =>
      have hlen : (c2 :: rest).length ≤ n := by
        simp only [List.length_cons] at h ⊢
        omega
      show (if c1 == ' ' then ' ' :: csGo true (c2 :: rest)
          else c1 :: csGo false (c2 :: rest)) =
        (if c1 == ' ' && c2 == ' ' then collapseSpacesSpec (c2 :: rest)
          else c1 :: collapseSpacesSpec (c2 :: rest))
      by_cases hc1 : (c1 == ' ') = true
      · rw [if_pos hc1]
        by_cases hc2 : (c2 == ' ') = true
        · rw [if_pos (by simp [hc1, hc2]), ← ih _ hlen, eq_of_beq hc2]
          show ' ' :: csGo true (' ' :: rest) = csGo false (' ' :: rest)
          show ' ' :: csGo true rest = ' ' :: csGo true rest
          rfl
        · rw [if_neg (by simp [hc2]), ← ih _ hlen, eq_of_beq hc1]
          show ' ' :: csGo true (c2 :: rest) = ' ' :: csGo false (c2 :: rest)
          congr 1
          show (if c2 == ' ' then csGo true rest else c2 :: csGo false rest) =
            (if c2 == ' ' then ' ' :: csGo true rest else c2 :: csGo false rest)
          rw [if_neg (by simp [hc2]), if_neg (by simp [hc2])]
      · rw [if_neg (by simp [hc1]), if_neg (by simp [hc1]), ← ih _ hlen]

theorem collapseSpaces_eq_spec (l : List Char) :
    collapseSpaces l = collapseSpacesSpec l :=
  csGo_false_eq_spec_le l.length l (Nat.le_refl _)

/-- Claim C4: `nobr` normalizes `\r\n` to `\n`, splits on runs of
two-or-more consecutive line-break characters into paragraphs,
replaces every remaining line break inside each paragraph with a
single space, collapses every run of consecutive spaces to one space,
and rejoins the paragraphs with `"\n\n"` (the formulation `nobrSpec`
transcribing the spec's algorithm); in particular
`nobr "line one\nline two\n\nsecond para" =
"line one line two\n\nsecond para"`. -/
theorem claim_C4_nobr :
    (∀ s : String, nobrFilter s = nobrSpec s) ∧
    nobrFilter "line one\nline two\n\nsecond para" =
      "line one line two\n\nsecond para" := by
  refine ⟨?_, by decide⟩
  intro s
  simp only [nobrFilter, nobrSpec]
  congr 1
  congr 1
  apply List.map_congr_left
  intro p _
  show collapseSpaces ((p.map (fun c => if c == '\r' then ' ' else c)).map
      (fun c => if c == '\n' then ' ' else c)) =
    collapseSpacesSpec (p.map (fun c => if isBreakChar c then ' ' else c))
  rw [replaceCR_replaceLF_fuse, collapseSpaces_eq_spec]

end ApiDocs
